import Mathlib

/-!
Verification of the core routines of `src/scripts_analysis/run_metrics.py`
(UnsupervisedMedicalSeg): the guided relabel label aligner, the
range-aware SSIM wrapper, and the dataset-name hyperparameter dispatch
of the batch driver.

Label maps are embedded as a height, a width, and a row-major flattened
list of integer pixel values, mirroring the `reshape(H * W)` flattening
the Python code performs before any computation.
-/

namespace RunMetrics

/-- A 2D integer label map: height `H`, width `W`, and the row-major
flattened pixel data (the Python code flattens with `reshape(H * W)`
before every computation). -/
structure LabelMap where
  H : Nat
  W : Nat
  data : List Int
  deriving DecidableEq, Repr

/-- Well-formedness: the flattened data has exactly `H * W` pixels. -/
def LabelMap.wf (m : LabelMap) : Prop := m.data.length = m.H * m.W

instance (m : LabelMap) : Decidable m.wf :=
  inferInstanceAs (Decidable (m.data.length = m.H * m.W))

/-- Insert `x` into a strictly ascending list, keeping it strictly
ascending and duplicate-free. Building block for `uniqueSorted`. -/
def insertUnique (x : Int) : List Int → List Int
  | [] => [x]
  | y :: ys =>
    if x < y then x :: y :: ys
    else if x = y then y :: ys
    else y :: insertUnique x ys

/-- `np.unique`: the distinct values of a list in ascending sorted order. -/
def uniqueSorted (l : List Int) : List Int := l.foldr insertUnique []

/-- Two's-complement reduction to NumPy `int16`: the representative of
`m` modulo `2^16` lying in `[-32768, 32767]`. The indicator matrices are
built with `dtype=np.int16`, so both matmuls of `guided_relabel`
accumulate in `int16` and wrap exactly like this (each wrapped addition
is reduction mod `2^16`, so the final entry is the exact sum reduced). -/
def toInt16 (m : Int) : Int := (m + 32768) % 65536 - 32768

/-- The exact (mathematical) number of pixel positions carrying value `p`
in `pd` and value `t` in `td`; the `int16` matmul entry is this count
reduced by `toInt16`. -/
def exactInter (pd td : List Int) (p t : Int) : Nat :=
  (pd.zip td).countP (fun q => q.1 == p && q.2 == t)

/-- The exact number of pixel positions carrying neither `p` in `pd` nor
`t` in `td`; the `int16` matmul entry is this count reduced by
`toInt16`. -/
def exactNeither (pd td : List Int) (p t : Int) : Nat :=
  (pd.zip td).countP (fun q => !(q.1 == p) && !(q.2 == t))

/-- Entry of the intersection matrix
(`np.matmul(label_pred_vec, label_true_vec.T)`): the indicator vectors
are `dtype=np.int16`, so the accumulated count wraps to `int16` above
32767. -/
def interCount (pd td : List Int) (p t : Int) : Int :=
  toInt16 (exactInter pd td p t)

/-- Entry of `np.matmul(1 - label_pred_vec, (1 - label_true_vec).T)`:
an `int16` matmul of 0/1 matrices, so the accumulated count wraps to
`int16` above 32767. -/
def neitherCount (pd td : List Int) (p t : Int) : Int :=
  toInt16 (exactNeither pd td p t)

/-- Entry of the union matrix
(`union_matrix = H * W - np.matmul(1 - label_pred_vec, (1 - label_true_vec).T)`),
with `n = H * W`. The subtraction itself is exact: when `H * W ≤ 32767`
it stays in `int16` with both operands in `[0, 32767]` and the wrapped
count equal to the exact count `≤ H * W`, so no wrap is possible; when
`H * W > 32767` the Python-int scalar does not fit `int16` and NumPy's
value-based casting promotes the subtraction to a wider integer type,
again exact. Only the subtracted matmul term wraps. -/
def unionCount (pd td : List Int) (n : Nat) (p t : Int) : Int :=
  (n : Int) - neitherCount pd td p t

/-- Entry of the IOU matrix
(`iou_matrix = intersection_matrix / union_matrix`): true division of the
(possibly wrapped) `int16` matrix entries, as an exact rational. -/
def iou (pd td : List Int) (n : Nat) (p t : Int) : ℚ :=
  ((interCount pd td p t : Int) : ℚ) / ((unionCount pd td n p t : Int) : ℚ)

/-- The exact intersection-over-union ratio in the spec's words
("IOU = intersection / union; union = H·W − count of pixels where both
are false"), computed over exact counts with no `int16` wraparound. Used
only to compare the program's wrapped IOU matrix against the spec's
intended quantity. -/
def iouSpec (pd td : List Int) (n : Nat) (p t : Int) : ℚ :=
  ((exactInter pd td p t : Nat) : ℚ) /
    (((n : Int) - (exactNeither pd td p t : Int) : Int) : ℚ)

/-- One step of `np.argmax`: keep the current best, replacing it only
when the new candidate is strictly better (so the FIRST maximum wins). -/
def argmaxStep (f : Int → ℚ) (acc : Option Int) (t : Int) : Option Int :=
  match acc with
  | none => some t
  | some b => if f b < f t then some t else some b

/-- `np.argmax` over a list of candidates scored by `f`, returning the
first candidate attaining the maximal score (`none` on an empty list). -/
def argmaxFirst (f : Int → ℚ) (l : List Int) : Option Int :=
  l.foldl (argmaxStep f) none

/-- `np.unique(label_true)[np.argmax(iou_matrix[i, :])]`: the ground-truth
label the predicted label `p` is rewritten to. The `none` branch (empty
ground-truth label list) is unreachable whenever there is at least one
pixel, since `np.unique` of a non-empty map is non-empty. -/
def relabelTarget (pd td : List Int) (n : Nat) (p : Int) : Int :=
  match argmaxFirst (fun t => iou pd td n p t) (uniqueSorted td) with
  | some t => t
  | none => 0

/-- `renumbered_label_pred[pix_loc] = label_true_idx`: write `tgt` at
every position whose predicted value is `p`, keeping `out` elsewhere. -/
def applyLabel (pd : List Int) (p : Int) (tgt : Int) (out : List Int) : List Int :=
  (pd.zip out).map (fun q => if q.1 = p then tgt else q.2)

/-- One iteration of the relabeling loop: rewrite all pixels of the
predicted value `p` to its `relabelTarget`. -/
def relabelStep (pd td : List Int) (n : Nat) (out : List Int) (p : Int) : List Int :=
  applyLabel pd p (relabelTarget pd td n p) out

/-- The relabeling loop of `guided_relabel`: starting from
`np.zeros_like(label_pred)`, rewrite, for each distinct predicted value in
ascending order, all its pixels to its `relabelTarget`. `n = H * W`. -/
def guided_relabel_data (pd td : List Int) (n : Nat) : List Int :=
  (uniqueSorted pd).foldl (relabelStep pd td n) (List.replicate pd.length 0)

/-- `guided_relabel(label_pred, label_true)`: asserts the two shapes are
equal (modelled as `none` on violation, mirroring the Python
`assert label_pred.shape == label_true.shape`), then relabels each
predicted value to the ground-truth value of maximal IOU. -/
def guided_relabel (label_pred label_true : LabelMap) : Option LabelMap :=
  if label_pred.H = label_true.H ∧ label_pred.W = label_true.W then
    some ⟨label_pred.H, label_pred.W,
          guided_relabel_data label_pred.data label_true.data
            (label_pred.H * label_pred.W)⟩
  else none

/-- The 4×4 predicted label map of the spec's end-to-end scenario. -/
def specPred : LabelMap :=
  ⟨4, 4, [1, 1, 2, 2, 1, 1, 2, 2, 3, 3, 0, 0, 3, 3, 0, 0]⟩

/-- The 4×4 ground-truth label map of the spec's end-to-end scenario. -/
def specTrue : LabelMap :=
  ⟨4, 4, [5, 5, 6, 6, 5, 5, 6, 6, 7, 7, 0, 0, 7, 7, 0, 0]⟩

/-- A 200×250 label map (50000 pixels, the scale of real segmentation
images): 40000 pixels of label 1 followed by 10000 pixels of label 2.
The 1-region's self-intersection count 40000 exceeds 32767 and wraps to
−25536 in the `int16` matmul. -/
def bigMap : LabelMap :=
  ⟨200, 250, List.replicate 40000 1 ++ List.replicate 10000 2⟩

/-- The per-dataset hyperparameters selected in `__main__`
(`is_binary`, `min_frame_ratio`, `min_area_ratio`; the latter two renamed
to satisfy Lean naming conventions). -/
structure Hparams where
  isBinary : Bool
  minFrameFrac : ℚ
  minAreaFrac : ℚ
  deriving DecidableEq, Repr

/-- The dataset-name dispatch of `__main__`: `retina` and `berkeley` each
assign a hyperparameter record; any other name falls through the
`if`/`elif` chain and leaves `hparams` unassigned (modelled as `none`).
The dispatch itself never fails. -/
def mainDispatch (dataset_name : String) : Option Hparams :=
  if dataset_name = "retina" then some ⟨true, 1 / 2, 1 / 200⟩
  else if dataset_name = "berkeley" then some ⟨false, 1 / 2, 1 / 500⟩
  else none

/-- The batch loop of `__main__`: for each input file the loop body calls
`segment_diffusion(hashmap, hparams)`, the first evaluation of the name
`hparams`. When `hparams` was never assigned, that first use raises
`NameError`; otherwise the iteration proceeds. An empty file list never
enters the loop body and so never touches `hparams`. -/
def batchLoop : Option Hparams → List String → Except String Hparams
  | _, [] => Except.error "empty batch"
  | none, _ :: _ => Except.error "NameError: name hparams is not defined"
  | some hp, _ :: rest =>
    match rest with
    | [] => Except.ok hp
    | _ :: _ => batchLoop (some hp) rest

/-- The driver slice relevant to the dispatch claim: select the
hyperparameters by dataset name, then run the batch loop. -/
def driverRun (dataset_name : String) (files : List String) : Except String Hparams :=
  batchLoop (mainDispatch dataset_name) files

/-- `a.max()` of a non-empty flattened array (`0` junk on empty input;
never used there — NumPy raises on an empty array). -/
def listMax : List ℚ → ℚ
  | [] => 0
  | h :: t => t.foldl max h

/-- `a.min()` of a non-empty flattened array (`0` junk on empty input). -/
def listMin : List ℚ → ℚ
  | [] => 0
  | h :: t => t.foldl min h

/-- `data_range = max(a.max(), b.max()) - min(a.min(), b.min())` as
computed by `range_aware_ssim`. -/
def dataRange (a b : List ℚ) : ℚ :=
  max (listMax a) (listMax b) - min (listMin a) (listMin b)

/-- `range_aware_ssim(a, b)`: computes the joint data range and hands it,
with no guard, to the external `ssim` routine (abstracted as the function
argument `ssimFn`, since `utils.metrics.ssim` is an external library
primitive). -/
def range_aware_ssim (ssimFn : List ℚ → List ℚ → ℚ → ℚ) (a b : List ℚ) : ℚ :=
  ssimFn a b (dataRange a b)

/-! ### Properties of `uniqueSorted` -/

theorem mem_insertUnique (x y : Int) (l : List Int) :
    y ∈ insertUnique x l ↔ y = x ∨ y ∈ l := by
  induction l with
  | nil => simp [insertUnique]
  | cons z zs ih =>
    unfold insertUnique
    split_ifs with h1 h2
    · simp
    · subst h2; simp only [List.mem_cons]; tauto
    · simp only [List.mem_cons, ih]; tauto

theorem insertUnique_pairwise (x : Int) (l : List Int)
    (hl : l.Pairwise (· < ·)) : (insertUnique x l).Pairwise (· < ·) := by
  induction l with
  | nil => simp [insertUnique]
  | cons z zs ih =>
    rcases List.pairwise_cons.mp hl with ⟨hz, hzs⟩
    unfold insertUnique
    split_ifs with h1 h2
    · refine List.pairwise_cons.mpr ⟨?_, hl⟩
      intro y hy
      rcases List.mem_cons.mp hy with rfl | hy
      · exact h1
      · exact lt_trans h1 (hz _ hy)
    · exact hl
    · refine List.pairwise_cons.mpr ⟨?_, ih hzs⟩
      intro y hy
      rcases (mem_insertUnique x y zs).mp hy with rfl | hy
      · exact lt_of_le_of_ne (le_of_not_lt h1) (Ne.symm h2)
      · exact hz _ hy

theorem mem_uniqueSorted (y : Int) (l : List Int) :
    y ∈ uniqueSorted l ↔ y ∈ l := by
  induction l with
  | nil => simp [uniqueSorted]
  | cons a t ih =>
    show y ∈ insertUnique a (uniqueSorted t) ↔ _
    rw [mem_insertUnique]
    simp [ih]

theorem uniqueSorted_pairwise (l : List Int) :
    (uniqueSorted l).Pairwise (· < ·) := by
  induction l with
  | nil => simp [uniqueSorted]
  | cons a t ih => exact insertUnique_pairwise a _ ih

/-! ### Properties of `argmaxFirst` (the `np.argmax` model) -/

theorem argmax_foldl_inv (f : Int → ℚ) :
    ∀ (l : List Int) (b : Int), l.Pairwise (· < ·) → (∀ u ∈ l, b < u) →
    ∃ t, l.foldl (argmaxStep f) (some b) = some t ∧ (t = b ∨ t ∈ l) ∧
      f b ≤ f t ∧ (∀ u ∈ l, f u ≤ f t) ∧ (∀ u ∈ l, f u = f t → t ≤ u) ∧
      (f t = f b → t = b) := by
  intro l
  induction l with
  | nil =>
    intro b _ _
    exact ⟨b, rfl, Or.inl rfl, le_refl _, by simp, by simp, fun _ => rfl⟩
  | cons u rest ih =>
    intro b hl hb
    rcases List.pairwise_cons.mp hl with ⟨hu, hrest⟩
    by_cases hcmp : f b < f u
    · obtain ⟨t, ht, hmem, hfle, hall, htie, heq⟩ := ih u hrest hu
      have hstep : argmaxStep f (some b) u = some u := by
        simp [argmaxStep, hcmp]
      refine ⟨t, ?_, ?_, ?_, ?_, ?_, ?_⟩
      · rw [List.foldl_cons, hstep]; exact ht
      · rcases hmem with rfl | h
        · exact Or.inr (List.mem_cons_self _ _)
        · exact Or.inr (List.mem_cons_of_mem _ h)
      · exact le_of_lt (lt_of_lt_of_le hcmp hfle)
      · intro v hv
        rcases List.mem_cons.mp hv with rfl | h
        · exact hfle
        · exact hall v h
      · intro v hv hv'
        rcases List.mem_cons.mp hv with rfl | h
        · rw [heq hv'.symm]
        · exact htie v h hv'
      · intro h
        exact absurd (hfle.trans h.le) (not_le.mpr hcmp)
    · obtain ⟨t, ht, hmem, hfble, hall, htie, heq⟩ :=
        ih b hrest (fun v hv => hb v (List.mem_cons_of_mem _ hv))
      have hstep : argmaxStep f (some b) u = some b := by
        simp [argmaxStep, hcmp]
      have hub : f u ≤ f b := le_of_not_lt hcmp
      refine ⟨t, ?_, ?_, hfble, ?_, ?_, heq⟩
      · rw [List.foldl_cons, hstep]; exact ht
      · rcases hmem with rfl | h
        · exact Or.inl rfl
        · exact Or.inr (List.mem_cons_of_mem _ h)
      · intro v hv
        rcases List.mem_cons.mp hv with rfl | h
        · exact hub.trans hfble
        · exact hall v h
      · intro v hv hv'
        rcases List.mem_cons.mp hv with rfl | h
        · have hfb : f t = f b := le_antisymm (hv' ▸ hub) hfble
          exact (heq hfb) ▸ le_of_lt (hb v (List.mem_cons_self _ _))
        · exact htie v h hv'

theorem argmaxFirst_sorted (f : Int → ℚ) (l : List Int)
    (hl : l.Pairwise (· < ·)) (hne : l ≠ []) :
    ∃ t, argmaxFirst f l = some t ∧ t ∈ l ∧ (∀ u ∈ l, f u ≤ f t) ∧
      (∀ u ∈ l, f u = f t → t ≤ u) := by
  match l with
  | [] => exact absurd rfl hne
  | u :: rest =>
    rcases List.pairwise_cons.mp hl with ⟨hu, hrest⟩
    obtain ⟨t, ht, hmem, hfble, hall, htie, heq⟩ := argmax_foldl_inv f rest u hrest hu
    refine ⟨t, ?_, ?_, ?_, ?_⟩
    · show (u :: rest).foldl (argmaxStep f) none = some t
      rw [List.foldl_cons]
      exact ht
    · rcases hmem with rfl | h
      · exact List.mem_cons_self _ _
      · exact List.mem_cons_of_mem _ h
    · intro v hv
      rcases List.mem_cons.mp hv with rfl | h
      · exact hfble
      · exact hall v h
    · intro v hv hv'
      rcases List.mem_cons.mp hv with rfl | h
      · rw [heq hv'.symm]
      · exact htie v h hv'

theorem argmaxStep_none (f : Int → ℚ) (t : Int) :
    argmaxStep f none t = some t := rfl

theorem argmaxStep_some (f : Int → ℚ) (b t : Int) :
    argmaxStep f (some b) t = if f b < f t then some t else some b := rfl

theorem argmaxFirst_pair_lt (f : Int → ℚ) (a b : Int) (h : f a < f b) :
    argmaxFirst f [a, b] = some b := by
  unfold argmaxFirst
  rw [List.foldl_cons, List.foldl_cons, List.foldl_nil, argmaxStep_none,
      argmaxStep_some, if_pos h]

theorem relabelTarget_eq_of_argmax (pd td : List Int) (n : Nat) (p t : Int)
    (h : argmaxFirst (fun u => iou pd td n p u) (uniqueSorted td) = some t) :
    relabelTarget pd td n p = t := by
  unfold relabelTarget
  rw [h]

/-! ### Shape and pixel-level characterization of the relabeling loop -/

theorem applyLabel_length (pd out : List Int) (p tgt : Int)
    (h : out.length = pd.length) :
    (applyLabel pd p tgt out).length = pd.length := by
  simp [applyLabel, h]

theorem applyLabel_getElem (pd out : List Int) (p tgt : Int)
    (k : Nat) (hk : k < pd.length) (hko : k < out.length)
    (hka : k < (applyLabel pd p tgt out).length) :
    (applyLabel pd p tgt out)[k] = if pd[k] = p then tgt else out[k] := by
  simp [applyLabel]

theorem relabel_foldl_length (pd td : List Int) (n : Nat) (ls : List Int) :
    ∀ out : List Int, out.length = pd.length →
    (ls.foldl (relabelStep pd td n) out).length = pd.length := by
  induction ls with
  | nil => intro out h; exact h
  | cons p rest ih =>
    intro out h
    rw [List.foldl_cons]
    exact ih _ (applyLabel_length pd out p _ h)

theorem relabel_foldl_getElem (pd td : List Int) (n : Nat) (ls : List Int) :
    ∀ (out : List Int), out.length = pd.length →
    ∀ (k : Nat) (hk : k < pd.length) (hko : k < out.length)
      (hkr : k < (ls.foldl (relabelStep pd td n) out).length),
    (ls.foldl (relabelStep pd td n) out)[k] =
      if pd[k] ∈ ls then relabelTarget pd td n (pd[k]) else out[k] := by
  induction ls with
  | nil =>
    intro out h k hk hko hkr
    simp
  | cons p rest ih =>
    intro out h k hk hko hkr
    have hlen' : (applyLabel pd p (relabelTarget pd td n p) out).length = pd.length :=
      applyLabel_length pd out p _ h
    have hko' : k < (applyLabel pd p (relabelTarget pd td n p) out).length :=
      hlen' ▸ hk
    have hkr2 : k < (List.foldl (relabelStep pd td n)
        (applyLabel pd p (relabelTarget pd td n p) out) rest).length := by
      rw [relabel_foldl_length pd td n rest _ hlen']
      exact hk
    simp only [List.foldl_cons, relabelStep]
    rw [ih (applyLabel pd p (relabelTarget pd td n p) out) hlen' k hk hko' hkr2]
    rw [applyLabel_getElem pd out p _ k hk hko hko']
    by_cases h2 : pd[k] = p
    · simp [List.mem_cons, h2]
    · by_cases h1 : pd[k] ∈ rest <;> simp [List.mem_cons, h1, h2]

theorem guided_relabel_data_length (pd td : List Int) (n : Nat) :
    (guided_relabel_data pd td n).length = pd.length :=
  relabel_foldl_length pd td n (uniqueSorted pd) (List.replicate pd.length 0)
    (by simp)

theorem guided_relabel_data_getElem (pd td : List Int) (n : Nat)
    (k : Nat) (hk : k < pd.length) (hkr : k < (guided_relabel_data pd td n).length) :
    (guided_relabel_data pd td n)[k] = relabelTarget pd td n (pd[k]) := by
  have hko : k < (List.replicate pd.length (0 : Int)).length := by simpa using hk
  have hkr' : k < ((uniqueSorted pd).foldl (relabelStep pd td n)
      (List.replicate pd.length 0)).length := hkr
  have h := relabel_foldl_getElem pd td n (uniqueSorted pd)
    (List.replicate pd.length 0) (by simp) k hk hko hkr'
  have hmem : pd[k] ∈ uniqueSorted pd :=
    (mem_uniqueSorted _ _).mpr (List.getElem_mem hk)
  show ((uniqueSorted pd).foldl (relabelStep pd td n)
      (List.replicate pd.length 0))[k] = relabelTarget pd td n (pd[k])
  rw [h, if_pos hmem]

/-! ### Arithmetic of the `int16` reduction -/

theorem toInt16_le_self (m : Int) (h : 0 ≤ m) : toInt16 m ≤ m := by
  unfold toInt16
  omega

theorem toInt16_eq_self (m : Int) (h0 : 0 ≤ m) (h1 : m ≤ 32767) :
    toInt16 m = m := by
  unfold toInt16
  omega

/-! ### Bounds on the IOU matrix entries -/

theorem countP_bool_add {α : Type} (q : α → Bool) (l : List α) :
    l.countP q + l.countP (fun x => !(q x)) = l.length := by
  induction l with
  | nil => simp
  | cons a t ih =>
    by_cases h : q a <;> simp [List.countP_cons, h] <;> omega

theorem exactNeither_lt_of_mem (pd td : List Int) (p t : Int)
    (hlen : td.length = pd.length) (hp : p ∈ pd) :
    exactNeither pd td p t < pd.length := by
  have hz : (pd.zip td).length = pd.length := by simp [hlen]
  obtain ⟨i, hi, hip⟩ := List.mem_iff_getElem.mp hp
  have hiz : i < (pd.zip td).length := by rw [hz]; exact hi
  have hne : exactNeither pd td p t ≠ (pd.zip td).length := by
    intro hcontra
    have hall := List.countP_eq_length.mp hcontra _ (List.getElem_mem hiz)
    rw [List.getElem_zip] at hall
    simp [hip] at hall
  have hle : exactNeither pd td p t ≤ (pd.zip td).length :=
    List.countP_le_length _
  omega

theorem countP_add_le_of_exclusive {α : Type} (q r : α → Bool) (l : List α)
    (h : ∀ x, q x = true → r x = false) :
    l.countP q + l.countP r ≤ l.length := by
  induction l with
  | nil => simp
  | cons a t ih =>
    by_cases hq : q a
    · have hr := h a hq
      simp [List.countP_cons, hq, hr]
      omega
    · by_cases hr : r a <;> simp [List.countP_cons, hq, hr] <;> omega

theorem inter_add_neither_le (pd td : List Int) (p t : Int) :
    exactInter pd td p t + exactNeither pd td p t ≤ (pd.zip td).length := by
  unfold exactInter exactNeither
  apply countP_add_le_of_exclusive
  intro x hx
  simp only [Bool.and_eq_true, beq_iff_eq] at hx
  simp [hx.1, hx.2]

theorem neitherCount_le_exact (pd td : List Int) (p t : Int) :
    neitherCount pd td p t ≤ (exactNeither pd td p t : Int) := by
  unfold neitherCount
  exact toInt16_le_self _ (Int.natCast_nonneg _)

theorem interCount_le_exact (pd td : List Int) (p t : Int) :
    interCount pd td p t ≤ (exactInter pd td p t : Int) := by
  unfold interCount
  exact toInt16_le_self _ (Int.natCast_nonneg _)

theorem unionCount_pos (pd td : List Int) (n : Nat) (p t : Int)
    (hn : pd.length = n) (hlen : td.length = pd.length) (hp : p ∈ pd) :
    1 ≤ unionCount pd td n p t := by
  have h := exactNeither_lt_of_mem pd td p t hlen hp
  have hle := neitherCount_le_exact pd td p t
  unfold unionCount
  omega

theorem interCount_le_unionCount (pd td : List Int) (n : Nat) (p t : Int)
    (hn : pd.length = n) (hlen : td.length = pd.length) :
    interCount pd td p t ≤ unionCount pd td n p t := by
  have h1 := inter_add_neither_le pd td p t
  have hz : (pd.zip td).length = pd.length := by simp [hlen]
  have hi := interCount_le_exact pd td p t
  have hne := neitherCount_le_exact pd td p t
  unfold unionCount
  omega

theorem interCount_nonneg_of_small (pd td : List Int) (n : Nat) (p t : Int)
    (hn : pd.length = n) (hsmall : n ≤ 32767) :
    0 ≤ interCount pd td p t := by
  have h1 : exactInter pd td p t ≤ (pd.zip td).length :=
    List.countP_le_length _
  have hz : (pd.zip td).length ≤ pd.length := by
    simp [Nat.min_le_left]
  unfold interCount
  rw [toInt16_eq_self _ (Int.natCast_nonneg _) (by omega)]
  exact Int.natCast_nonneg _

theorem iou_nonneg (pd td : List Int) (n : Nat) (p t : Int)
    (hpos : 1 ≤ unionCount pd td n p t)
    (hip : 0 ≤ interCount pd td p t) : 0 ≤ iou pd td n p t := by
  unfold iou
  apply div_nonneg
  · exact_mod_cast hip
  · have : (0 : Int) ≤ unionCount pd td n p t := by omega
    exact_mod_cast this

theorem iou_le_one (pd td : List Int) (n : Nat) (p t : Int)
    (hn : pd.length = n) (hlen : td.length = pd.length) (hp : p ∈ pd) :
    iou pd td n p t ≤ 1 := by
  have hpos := unionCount_pos pd td n p t hn hlen hp
  have hle := interCount_le_unionCount pd td n p t hn hlen
  unfold iou
  rw [div_le_one]
  · exact_mod_cast hle
  · have : (0 : Int) < unionCount pd td n p t := by omega
    exact_mod_cast this

/-! ### IOU of a label map against itself -/

theorem zip_self_countP (l : List Int) (q : Int × Int → Bool) :
    (l.zip l).countP q = l.countP (fun a => q (a, a)) := by
  induction l with
  | nil => rfl
  | cons a t ih => simp [List.countP_cons, ih]

theorem exactInter_self (l : List Int) (p : Int) :
    exactInter l l p p = l.countP (fun a => a == p) := by
  unfold exactInter
  rw [zip_self_countP]
  simp

theorem exactNeither_self (l : List Int) (p : Int) :
    exactNeither l l p p = l.countP (fun a => !(a == p)) := by
  unfold exactNeither
  rw [zip_self_countP]
  simp

theorem iou_self_eq_one (l : List Int) (n : Nat) (p : Int)
    (hn : l.length = n) (hsmall : n ≤ 32767) (hp : p ∈ l) :
    iou l l n p p = 1 := by
  have hc : 0 < l.countP (fun a => a == p) :=
    List.countP_pos_iff.mpr ⟨p, hp, by simp⟩
  have hcle : l.countP (fun a => a == p) ≤ l.length :=
    List.countP_le_length _
  have hnle : l.countP (fun a => !(a == p)) ≤ l.length :=
    List.countP_le_length _
  have hadd := countP_bool_add (fun a : Int => a == p) l
  have hi : interCount l l p p = (l.countP (fun a => a == p) : Int) := by
    unfold interCount
    rw [exactInter_self]
    exact toInt16_eq_self _ (Int.natCast_nonneg _) (by omega)
  have hne2 : neitherCount l l p p = (l.countP (fun a => !(a == p)) : Int) := by
    unfold neitherCount
    rw [exactNeither_self]
    exact toInt16_eq_self _ (Int.natCast_nonneg _) (by omega)
  unfold iou unionCount
  rw [hi, hne2]
  have heq : (n : Int) - (l.countP (fun a => !(a == p)) : Int) =
      (l.countP (fun a => a == p) : Int) := by omega
  have hcq : ((l.countP (fun a => a == p) : Nat) : ℚ) ≠ 0 := by
    exact_mod_cast hc.ne'
  rw [heq]
  push_cast
  exact div_self hcq

theorem iou_self_ne (l : List Int) (n : Nat) (p t : Int) (hpt : p ≠ t) :
    iou l l n p t = 0 := by
  have hzero : exactInter l l p t = 0 := by
    unfold exactInter
    rw [zip_self_countP]
    apply List.countP_eq_zero.mpr
    intro a _
    simp only [Bool.and_eq_true, beq_iff_eq, not_and]
    intro h1 h2
    exact hpt (h1 ▸ h2 ▸ rfl)
  have hzero16 : interCount l l p t = 0 := by
    unfold interCount
    rw [hzero]
    decide
  unfold iou
  rw [hzero16]
  simp

theorem relabelTarget_self (l : List Int) (n : Nat) (p : Int)
    (hn : l.length = n) (hsmall : n ≤ 32767) (hp : p ∈ l) :
    relabelTarget l l n p = p := by
  have hp' : p ∈ uniqueSorted l := (mem_uniqueSorted p l).mpr hp
  have hne : uniqueSorted l ≠ [] := by
    intro h
    rw [h] at hp'
    exact absurd hp' (List.not_mem_nil p)
  obtain ⟨t, ht, htmem, hmax, _⟩ := argmaxFirst_sorted
    (fun t => iou l l n p t) (uniqueSorted l) (uniqueSorted_pairwise l) hne
  unfold relabelTarget
  rw [ht]
  by_contra hne2
  have h1 := hmax p hp'
  rw [iou_self_eq_one l n p hn hsmall hp] at h1
  rw [iou_self_ne l n p t (fun h => hne2 h.symm)] at h1
  linarith

/-! ### Bridge lemmas at the `LabelMap` level -/

theorem guided_relabel_eq_some (A B : LabelMap) (hH : A.H = B.H) (hW : A.W = B.W) :
    guided_relabel A B =
      some ⟨A.H, A.W, guided_relabel_data A.data B.data (A.H * A.W)⟩ := by
  unfold guided_relabel
  rw [if_pos ⟨hH, hW⟩]

theorem uniqueSorted_ne_nil (l : List Int) (h : l ≠ []) : uniqueSorted l ≠ [] := by
  cases l with
  | nil => exact absurd rfl h
  | cons b rest =>
    intro hnil
    have hb : b ∈ uniqueSorted (b :: rest) :=
      (mem_uniqueSorted _ _).mpr (List.mem_cons_self _ _)
    rw [hnil] at hb
    exact absurd hb (List.not_mem_nil b)

theorem relabelTarget_spec (pd td : List Int) (n : Nat) (p : Int) (hne : td ≠ []) :
    relabelTarget pd td n p ∈ uniqueSorted td ∧
    (∀ u ∈ uniqueSorted td,
      iou pd td n p u ≤ iou pd td n p (relabelTarget pd td n p)) ∧
    (∀ u ∈ uniqueSorted td,
      iou pd td n p u = iou pd td n p (relabelTarget pd td n p) →
        relabelTarget pd td n p ≤ u) := by
  obtain ⟨t, ht, htmem, hmax, htie⟩ := argmaxFirst_sorted
    (fun u => iou pd td n p u) (uniqueSorted td)
    (uniqueSorted_pairwise td) (uniqueSorted_ne_nil td hne)
  have hrt : relabelTarget pd td n p = t := by
    unfold relabelTarget
    rw [ht]
  rw [hrt]
  exact ⟨htmem, hmax, htie⟩

theorem relabelTarget_eq_of_unique_max (pd td : List Int) (n : Nat) (p t0 : Int)
    (hne : td ≠ []) (ht0 : t0 ∈ uniqueSorted td)
    (hmax1 : (1 : ℚ) ≤ iou pd td n p t0)
    (hothers : ∀ u ∈ uniqueSorted td, u ≠ t0 → iou pd td n p u < 1) :
    relabelTarget pd td n p = t0 := by
  obtain ⟨htmem, hmax, _⟩ := relabelTarget_spec pd td n p hne
  by_contra hne2
  have h1 := hmax t0 ht0
  have h2 := hothers _ htmem hne2
  linarith

theorem shape_eq_data_length (A B : LabelMap) (hA : A.wf) (hB : B.wf)
    (hH : A.H = B.H) (hW : A.W = B.W) : B.data.length = A.data.length := by
  rw [hB, hA, hH, hW]

theorem guided_relabel_pixel (A B : LabelMap) (hH : A.H = B.H) (hW : A.W = B.W)
    (out : LabelMap) (hout : guided_relabel A B = some out)
    (k : Nat) (hk : k < A.data.length) (hko : k < out.data.length) :
    out.data[k] = relabelTarget A.data B.data (A.H * A.W) (A.data[k]) := by
  rw [guided_relabel_eq_some A B hH hW] at hout
  injection hout with h
  subst h
  exact guided_relabel_data_getElem _ _ _ k hk hko

/-! ### The `int16` overflow on the 200×250 map `bigMap` -/

theorem insertUnique_cons_lt (x y : Int) (ys : List Int) (h1 : x < y) :
    insertUnique x (y :: ys) = x :: y :: ys := by
  show (if x < y then x :: y :: ys
    else if x = y then y :: ys else y :: insertUnique x ys) = _
  rw [if_pos h1]

theorem insertUnique_cons_eq (x y : Int) (ys : List Int) (h : x = y) :
    insertUnique x (y :: ys) = y :: ys := by
  subst h
  show (if x < x then x :: x :: ys
    else if x = x then x :: ys else x :: insertUnique x ys) = _
  rw [if_neg (lt_irrefl x), if_pos rfl]

theorem insertUnique_cons_gt (x y : Int) (ys : List Int)
    (h1 : ¬x < y) (h2 : ¬x = y) :
    insertUnique x (y :: ys) = y :: insertUnique x ys := by
  show (if x < y then x :: y :: ys
    else if x = y then y :: ys else y :: insertUnique x ys) = _
  rw [if_neg h1, if_neg h2]

theorem insertUnique_idem (x : Int) (l : List Int) :
    insertUnique x (insertUnique x l) = insertUnique x l := by
  induction l with
  | nil =>
    show insertUnique x [x] = [x]
    exact insertUnique_cons_eq x x [] rfl
  | cons y ys ih =>
    by_cases h1 : x < y
    · rw [insertUnique_cons_lt x y ys h1, insertUnique_cons_eq x x _ rfl]
    · by_cases h2 : x = y
      · rw [insertUnique_cons_eq x y ys h2]
        exact insertUnique_cons_eq x y ys h2
      · rw [insertUnique_cons_gt x y ys h1 h2,
            insertUnique_cons_gt x y _ h1 h2, ih]

theorem foldr_insertUnique_replicate (x : Int) (acc : List Int) (m : Nat) :
    (List.replicate (m + 1) x).foldr insertUnique acc = insertUnique x acc := by
  induction m with
  | zero => rfl
  | succ m ih =>
    show insertUnique x ((List.replicate (m + 1) x).foldr insertUnique acc) =
      insertUnique x acc
    rw [ih, insertUnique_idem]

theorem uniqueSorted_append (l1 l2 : List Int) :
    uniqueSorted (l1 ++ l2) = l1.foldr insertUnique (uniqueSorted l2) := by
  unfold uniqueSorted
  rw [List.foldr_append]

theorem bigMap_uniqueSorted : uniqueSorted bigMap.data = [1, 2] := by
  show uniqueSorted (List.replicate 40000 1 ++ List.replicate 10000 2) = [1, 2]
  rw [uniqueSorted_append,
      show (40000 : Nat) = 39999 + 1 from rfl,
      foldr_insertUnique_replicate,
      show uniqueSorted (List.replicate 10000 2) =
        (List.replicate (9999 + 1) (2 : Int)).foldr insertUnique [] from rfl,
      foldr_insertUnique_replicate]
  decide

theorem bigMap_length : bigMap.data.length = 50000 := by
  show (List.replicate 40000 (1 : Int) ++ List.replicate 10000 2).length = 50000
  rw [List.length_append, List.length_replicate, List.length_replicate]

theorem bigMap_wf : bigMap.wf := by
  show bigMap.data.length = bigMap.H * bigMap.W
  rw [bigMap_length]
  rfl

theorem bigMap_exactInter_one_one :
    exactInter bigMap.data bigMap.data 1 1 = 40000 := by
  unfold exactInter
  rw [zip_self_countP]
  show (List.replicate 40000 (1 : Int) ++
    List.replicate 10000 2).countP _ = 40000
  rw [List.countP_append, List.countP_replicate, List.countP_replicate]
  norm_num

theorem bigMap_exactNeither_one_one :
    exactNeither bigMap.data bigMap.data 1 1 = 10000 := by
  unfold exactNeither
  rw [zip_self_countP]
  show (List.replicate 40000 (1 : Int) ++
    List.replicate 10000 2).countP _ = 10000
  rw [List.countP_append, List.countP_replicate, List.countP_replicate]
  norm_num

/-- The wrapped self-IOU of the 40000-pixel label 1 is negative: the
`int16` intersection entry is `toInt16 40000 = -25536` while the union
entry is `50000 - 10000 = 40000`. -/
theorem bigMap_iou_one_one_neg :
    iou bigMap.data bigMap.data (bigMap.H * bigMap.W) 1 1 < 0 := by
  have hi : interCount bigMap.data bigMap.data 1 1 = -25536 := by
    unfold interCount
    rw [bigMap_exactInter_one_one]
    decide
  have hne : neitherCount bigMap.data bigMap.data 1 1 = 10000 := by
    unfold neitherCount
    rw [bigMap_exactNeither_one_one]
    decide
  unfold iou unionCount
  rw [hi, hne, show bigMap.H * bigMap.W = 50000 from rfl]
  norm_num

theorem bigMap_iou_one_two :
    iou bigMap.data bigMap.data (bigMap.H * bigMap.W) 1 2 = 0 := by
  have hz : exactInter bigMap.data bigMap.data 1 2 = 0 := by
    unfold exactInter
    rw [zip_self_countP]
    apply List.countP_eq_zero.mpr
    intro a _
    simp only [Bool.and_eq_true, beq_iff_eq, not_and]
    intro h1 h2
    rw [h1] at h2
    exact absurd h2 (by decide)
  have hz16 : interCount bigMap.data bigMap.data 1 2 = 0 := by
    unfold interCount
    rw [hz]
    decide
  unfold iou
  rw [hz16]
  simp

/-- The relabeling loop sends the predicted label 1 of `bigMap` to 2:
the wrapped self-IOU −25536/40000 loses the row argmax to the zero IOU
of label 2. -/
theorem bigMap_relabelTarget_one :
    relabelTarget bigMap.data bigMap.data (bigMap.H * bigMap.W) 1 = 2 := by
  have hcmp : iou bigMap.data bigMap.data (bigMap.H * bigMap.W) 1 1 <
      iou bigMap.data bigMap.data (bigMap.H * bigMap.W) 1 2 := by
    rw [bigMap_iou_one_two]
    exact bigMap_iou_one_one_neg
  apply relabelTarget_eq_of_argmax
  rw [bigMap_uniqueSorted]
  exact argmaxFirst_pair_lt _ 1 2 hcmp

theorem bigMap_data_cons :
    bigMap.data = 1 :: (List.replicate 39999 1 ++ List.replicate 10000 2) := by
  show List.replicate 40000 (1 : Int) ++ List.replicate 10000 2 = _
  rw [show (40000 : Nat) = 39999 + 1 from rfl, List.replicate_succ,
      List.cons_append]

theorem bigMap_head : ∀ h0 : 0 < bigMap.data.length, bigMap.data[0] = 1 := by
  intro h0
  simp only [bigMap_data_cons, List.getElem_cons_zero]

theorem take_one_eq (l : List Int) (x : Int) (hlen : 0 < l.length)
    (h : l[0] = x) : l.take 1 = [x] := by
  cases l with
  | nil => simp at hlen
  | cons a t =>
    simp at h
    rw [h]
    rfl

theorem data_of_mk_eq (Hn Wn : Nat) (l : List Int) (M : LabelMap)
    (h : (⟨Hn, Wn, l⟩ : LabelMap) = M) : l = M.data :=
  congrArg (fun m : LabelMap => m.data) h

/-- The first output pixel of relabeling `bigMap` against itself carries
label 2, not its original label 1. -/
theorem bigMap_out_head :
    (guided_relabel_data bigMap.data bigMap.data
      (bigMap.H * bigMap.W)).take 1 = [2] := by
  have hlen : (guided_relabel_data bigMap.data bigMap.data
      (bigMap.H * bigMap.W)).length = bigMap.data.length :=
    guided_relabel_data_length _ _ _
  have h50 := bigMap_length
  have hk : 0 < bigMap.data.length := by omega
  have hkr : 0 < (guided_relabel_data bigMap.data bigMap.data
      (bigMap.H * bigMap.W)).length := by omega
  apply take_one_eq _ _ hkr
  rw [guided_relabel_data_getElem _ _ _ 0 hk hkr, bigMap_head hk,
      bigMap_relabelTarget_one]

/-! ### Constant-array lemmas for `range_aware_ssim` -/

theorem foldl_max_const (c : ℚ) (l : List ℚ) (h : ∀ x ∈ l, x = c) :
    l.foldl max c = c := by
  induction l with
  | nil => rfl
  | cons x t ih =>
    rw [List.foldl_cons, h x (List.mem_cons_self _ _), max_self]
    exact ih (fun y hy => h y (List.mem_cons_of_mem _ hy))

theorem foldl_min_const (c : ℚ) (l : List ℚ) (h : ∀ x ∈ l, x = c) :
    l.foldl min c = c := by
  induction l with
  | nil => rfl
  | cons x t ih =>
    rw [List.foldl_cons, h x (List.mem_cons_self _ _), min_self]
    exact ih (fun y hy => h y (List.mem_cons_of_mem _ hy))

theorem listMax_const (c : ℚ) (l : List ℚ) (hne : l ≠ []) (h : ∀ x ∈ l, x = c) :
    listMax l = c := by
  cases l with
  | nil => exact absurd rfl hne
  | cons x t =>
    show t.foldl max x = c
    rw [h x (List.mem_cons_self _ _)]
    exact foldl_max_const c t (fun y hy => h y (List.mem_cons_of_mem _ hy))

theorem listMin_const (c : ℚ) (l : List ℚ) (hne : l ≠ []) (h : ∀ x ∈ l, x = c) :
    listMin l = c := by
  cases l with
  | nil => exact absurd rfl hne
  | cons x t =>
    show t.foldl min x = c
    rw [h x (List.mem_cons_self _ _)]
    exact foldl_min_const c t (fun y hy => h y (List.mem_cons_of_mem _ hy))

/-! ### The claims -/

/-- C1 (counterexample): the claim that label value 0 is excluded from the
IOU region matching is false on the code. `np.unique(label_pred)` keeps 0,
so on the 1×1 maps `predicted = [[0]]`, `ground_truth = [[5]]` the
predicted label 0 is matched (IOU 1 against the ground-truth label 5) and
its pixel is rewritten to 5; were 0 excluded, the pixel would keep the
initial value 0 of `np.zeros_like`. -/
theorem guided_relabel_zero_excluded_refuted :
    guided_relabel ⟨1, 1, [0]⟩ ⟨1, 1, [5]⟩ = some ⟨1, 1, [5]⟩ ∧
    guided_relabel ⟨1, 1, [0]⟩ ⟨1, 1, [5]⟩ ≠ some ⟨1, 1, [0]⟩ := by
  decide

/-- C1 (amended): the IOU matching of `guided_relabel` is computed over
ALL distinct label values including 0: the value 0, when present in the
predicted map, appears in the enumerated label list, and every pixel
carrying predicted label 0 is rewritten to the ground-truth label whose
IOU-matrix entry (computed, as in the code, from the `int16`-wrapped
matmul counts) against the predicted 0-region is maximal — first in
ascending order on ties — exactly like any non-zero label. -/
theorem guided_relabel_zero_participates (A B : LabelMap)
    (hA : A.wf) (hB : B.wf) (hH : A.H = B.H) (hW : A.W = B.W)
    (out : LabelMap) (hout : guided_relabel A B = some out)
    (k : Nat) (hk : k < A.data.length) (hko : k < out.data.length)
    (hzero : A.data[k] = 0) :
    (0 : Int) ∈ uniqueSorted A.data ∧
    ∃ t, out.data[k] = t ∧ t ∈ uniqueSorted B.data ∧
      (∀ u ∈ uniqueSorted B.data,
        iou A.data B.data (A.H * A.W) 0 u ≤ iou A.data B.data (A.H * A.W) 0 t) ∧
      (∀ u ∈ uniqueSorted B.data,
        iou A.data B.data (A.H * A.W) 0 u = iou A.data B.data (A.H * A.W) 0 t →
          t ≤ u) := by
  have hBlen : B.data.length = A.data.length := shape_eq_data_length A B hA hB hH hW
  have hBne : B.data ≠ [] := by
    intro hnil
    rw [hnil] at hBlen
    simp at hBlen
    omega
  have hpix := guided_relabel_pixel A B hH hW out hout k hk hko
  rw [hzero] at hpix
  obtain ⟨htmem, hmax, htie⟩ :=
    relabelTarget_spec A.data B.data (A.H * A.W) 0 hBne
  refine ⟨?_, relabelTarget A.data B.data (A.H * A.W) 0, hpix, htmem, hmax, htie⟩
  rw [mem_uniqueSorted]
  rw [← hzero]
  exact List.getElem_mem hk

/-- C1 (witness for the amended theorem): on `predicted = [[0]]`,
`ground_truth = [[5]]`, the label 0 is enumerated and its pixel receives
the maximal-IOU ground-truth label. -/
theorem guided_relabel_zero_participates_witness :
    (0 : Int) ∈ uniqueSorted [0] ∧
    ∃ t, (5 : Int) = t ∧ t ∈ uniqueSorted [5] ∧
      (∀ u ∈ uniqueSorted [5], iou [0] [5] 1 0 u ≤ iou [0] [5] 1 0 t) ∧
      (∀ u ∈ uniqueSorted [5], iou [0] [5] 1 0 u = iou [0] [5] 1 0 t → t ≤ u) :=
  guided_relabel_zero_participates ⟨1, 1, [0]⟩ ⟨1, 1, [5]⟩
    (by decide) (by decide) rfl rfl ⟨1, 1, [5]⟩ (by decide)
    0 (by decide) (by decide) (by decide)

/-- C2 (counterexample): relabeling against itself is NOT the identity
for every non-empty, not-all-zero map. On the 200×250 map `bigMap`
(first pixel label 1, so non-empty with non-zero content), the `int16`
matmul wraps the 40000-pixel self-intersection of label 1 to −25536, the
self-IOU turns negative and loses the argmax to label 2's zero IOU, so
the output rewrites the first pixel to 2 and differs from the input. -/
theorem guided_relabel_self_not_identity :
    bigMap.wf ∧ bigMap.data ≠ [] ∧ bigMap.data.take 1 = [1] ∧
    guided_relabel bigMap bigMap ≠ some bigMap := by
  have h50 := bigMap_length
  have hk : 0 < bigMap.data.length := by omega
  refine ⟨bigMap_wf, ?_, take_one_eq _ _ hk (bigMap_head hk), ?_⟩
  · intro hnil
    rw [hnil] at h50
    simp at h50
  · intro heq
    rw [guided_relabel_eq_some bigMap bigMap rfl rfl] at heq
    injection heq with h
    have hd := data_of_mk_eq bigMap.H bigMap.W _ bigMap h
    have h1 := bigMap_out_head
    rw [hd, take_one_eq _ _ hk (bigMap_head hk)] at h1
    exact absurd h1 (by decide)

/-- C2 (amended): relabeling a label map against itself is the identity
whenever the map has at most 32767 pixels, so that no count overflows the
`int16` matmul accumulators — each label's IOU with itself is then
exactly 1 and with every other label 0, and the self-match dominates. -/
theorem guided_relabel_self_identity (A : LabelMap) (hA : A.wf)
    (hsmall : A.H * A.W ≤ 32767)
    (hne : A.data ≠ []) (hnz : ∃ v ∈ A.data, v ≠ 0) :
    guided_relabel A A = some A := by
  rw [guided_relabel_eq_some A A rfl rfl]
  have hlen : (guided_relabel_data A.data A.data (A.H * A.W)).length
      = A.data.length := guided_relabel_data_length _ _ _
  have hdata : guided_relabel_data A.data A.data (A.H * A.W) = A.data := by
    apply List.ext_getElem hlen
    intro k hk1 hk2
    rw [guided_relabel_data_getElem A.data A.data (A.H * A.W) k hk2 hk1]
    exact relabelTarget_self A.data (A.H * A.W) _ hA hsmall
      (List.getElem_mem hk2)
  rw [hdata]

/-- C2 (witness): a concrete 2×2 map with non-zero content is fixed by
`guided_relabel` against itself. -/
theorem guided_relabel_self_identity_witness :
    guided_relabel ⟨2, 2, [1, 2, 0, 4]⟩ ⟨2, 2, [1, 2, 0, 4]⟩ =
      some ⟨2, 2, [1, 2, 0, 4]⟩ :=
  guided_relabel_self_identity ⟨2, 2, [1, 2, 0, 4]⟩ (by decide) (by decide)
    (by decide) ⟨1, by decide, by decide⟩

/-- C3: for well-formed equal-shape inputs, `guided_relabel` returns a map
with the predicted map's shape in which every pixel carries a value
present in the ground-truth map — no label value is invented. -/
theorem guided_relabel_output_from_true (A B : LabelMap)
    (hA : A.wf) (hB : B.wf) (hH : A.H = B.H) (hW : A.W = B.W)
    (out : LabelMap) (hout : guided_relabel A B = some out) :
    out.H = A.H ∧ out.W = A.W ∧ out.data.length = A.data.length ∧
    ∀ (k : Nat) (hk : k < out.data.length), out.data[k] ∈ B.data := by
  have hBlen : B.data.length = A.data.length := shape_eq_data_length A B hA hB hH hW
  have hsome := guided_relabel_eq_some A B hH hW
  rw [hout] at hsome
  injection hsome with h
  subst h
  refine ⟨rfl, rfl, guided_relabel_data_length _ _ _, ?_⟩
  intro k hk
  have hkA : k < A.data.length := by
    have hlen := guided_relabel_data_length A.data B.data (A.H * A.W)
    have hk' : k < (guided_relabel_data A.data B.data (A.H * A.W)).length := hk
    omega
  have hBne : B.data ≠ [] := by
    intro hnil
    rw [hnil] at hBlen
    simp at hBlen
    omega
  have hpix := guided_relabel_pixel A B hH hW
    ⟨A.H, A.W, guided_relabel_data A.data B.data (A.H * A.W)⟩
    (guided_relabel_eq_some A B hH hW) k hkA hk
  rw [hpix]
  obtain ⟨htmem, _, _⟩ :=
    relabelTarget_spec A.data B.data (A.H * A.W) (A.data[k]) hBne
  exact (mem_uniqueSorted _ _).mp htmem

/-- C3 (witness): concrete 1×2 inputs — every output pixel value is drawn
from the ground-truth value set. -/
theorem guided_relabel_output_from_true_witness :
    (⟨1, 2, [4, 4]⟩ : LabelMap).H = 1 ∧
    (⟨1, 2, [4, 4]⟩ : LabelMap).W = 2 ∧
    (⟨1, 2, [4, 4]⟩ : LabelMap).data.length = ([1, 2] : List Int).length ∧
    ∀ (k : Nat) (hk : k < (⟨1, 2, [4, 4]⟩ : LabelMap).data.length),
      (⟨1, 2, [4, 4]⟩ : LabelMap).data[k] ∈ ([4, 4] : List Int) :=
  guided_relabel_output_from_true ⟨1, 2, [1, 2]⟩ ⟨1, 2, [4, 4]⟩
    (by decide) (by decide) rfl rfl ⟨1, 2, [4, 4]⟩ (by decide)

/-- C4 (counterexample): the IOU matrix entries do NOT lie in `[0, 1]`
for all image sizes. On the well-formed 200×250 pair `(bigMap, bigMap)`,
label 1 is enumerated on both sides, yet its matrix entry is negative:
the 40000-pixel intersection wraps to −25536 in the `int16` matmul while
the union entry stays positive. -/
theorem iou_matrix_entry_negative :
    bigMap.wf ∧ (1 : Int) ∈ uniqueSorted bigMap.data ∧
    iou bigMap.data bigMap.data (bigMap.H * bigMap.W) 1 1 < 0 := by
  refine ⟨bigMap_wf, ?_, bigMap_iou_one_one_neg⟩
  rw [bigMap_uniqueSorted]
  decide

/-- C4 (amended): for every pair of enumerated labels the union
denominator is at least 1 (each enumerated label occupies at least one
pixel, and the wrapped subtracted term never exceeds the exact count)
and the IOU entry is at most 1, at every image size; the entry is also
at least 0 provided the image has at most 32767 pixels, so that the
`int16` intersection accumulator cannot wrap negative. -/
theorem iou_matrix_entries (A B : LabelMap)
    (hA : A.wf) (hB : B.wf) (hH : A.H = B.H) (hW : A.W = B.W)
    (p t : Int) (hp : p ∈ uniqueSorted A.data) (ht : t ∈ uniqueSorted B.data) :
    1 ≤ unionCount A.data B.data (A.H * A.W) p t ∧
    iou A.data B.data (A.H * A.W) p t ≤ 1 ∧
    (A.H * A.W ≤ 32767 → 0 ≤ iou A.data B.data (A.H * A.W) p t) := by
  have hp' : p ∈ A.data := (mem_uniqueSorted _ _).mp hp
  have hn : A.data.length = A.H * A.W := hA
  have hlen : B.data.length = A.data.length := shape_eq_data_length A B hA hB hH hW
  have h1 := unionCount_pos A.data B.data (A.H * A.W) p t hn hlen hp'
  refine ⟨h1, iou_le_one _ _ _ _ _ hn hlen hp', fun hsmall => ?_⟩
  exact iou_nonneg _ _ _ _ _ h1
    (interCount_nonneg_of_small A.data B.data (A.H * A.W) p t hn hsmall)

/-- C4 (witness): on 1×1 maps `[[1]]`, `[[2]]` the union is ≥ 1 and the
IOU entry lies in `[0, 1]`. -/
theorem iou_matrix_entries_witness :
    1 ≤ unionCount [1] [2] 1 1 2 ∧
    iou [1] [2] 1 1 2 ≤ 1 ∧ 0 ≤ iou [1] [2] 1 1 2 := by
  have h := iou_matrix_entries ⟨1, 1, [1]⟩ ⟨1, 1, [2]⟩ (by decide) (by decide)
    rfl rfl 1 2 (by decide) (by decide)
  exact ⟨h.1, h.2.1, h.2.2 (by decide)⟩

/-- C5 (counterexample): the pixels of a predicted label are NOT always
rewritten to the ground-truth label whose (exact, spec-sense) IOU is
maximal. On the 200×250 pair `(bigMap, bigMap)` the first pixel carries
predicted label 1 and the exact IOU of (1, 1) is 1, strictly above the
exact IOU 0 of (1, 2) — yet the output's first pixel is 2, because the
code argmaxes the `int16`-wrapped matrix row in which entry (1, 1)
wrapped to a negative value. -/
theorem guided_relabel_argmax_not_exact_iou :
    bigMap.wf ∧ bigMap.data.take 1 = [1] ∧
    guided_relabel bigMap bigMap =
      some ⟨bigMap.H, bigMap.W,
        guided_relabel_data bigMap.data bigMap.data (bigMap.H * bigMap.W)⟩ ∧
    (guided_relabel_data bigMap.data bigMap.data
      (bigMap.H * bigMap.W)).take 1 = [2] ∧
    iouSpec bigMap.data bigMap.data (bigMap.H * bigMap.W) 1 2 <
      iouSpec bigMap.data bigMap.data (bigMap.H * bigMap.W) 1 1 := by
  have h50 := bigMap_length
  have hk : 0 < bigMap.data.length := by omega
  refine ⟨bigMap_wf, take_one_eq _ _ hk (bigMap_head hk),
    guided_relabel_eq_some bigMap bigMap rfl rfl, bigMap_out_head, ?_⟩
  have h11 : iouSpec bigMap.data bigMap.data (bigMap.H * bigMap.W) 1 1 = 1 := by
    unfold iouSpec
    rw [bigMap_exactInter_one_one, bigMap_exactNeither_one_one,
        show bigMap.H * bigMap.W = 50000 from rfl]
    norm_num
  have h12 : iouSpec bigMap.data bigMap.data (bigMap.H * bigMap.W) 1 2 = 0 := by
    have hz : exactInter bigMap.data bigMap.data 1 2 = 0 := by
      unfold exactInter
      rw [zip_self_countP]
      apply List.countP_eq_zero.mpr
      intro a _
      simp only [Bool.and_eq_true, beq_iff_eq, not_and]
      intro h1 h2
      rw [h1] at h2
      exact absurd h2 (by decide)
    unfold iouSpec
    rw [hz]
    simp
  rw [h11, h12]
  norm_num

/-- C5 (amended): every pixel of the output carries the ground-truth
label whose entry of the IOU matrix — as the code computes it, from the
`int16`-wrapped matmul counts — is maximal for its predicted label;
among equal-entry candidates the one appearing first in the ascending
sorted distinct ground-truth list (i.e. the smallest) is chosen,
matching `np.argmax`'s first-occurrence rule. Below 32768 pixels the
wrapped entries coincide with the exact IOUs. -/
theorem guided_relabel_argmax_rule (A B : LabelMap)
    (hA : A.wf) (hB : B.wf) (hH : A.H = B.H) (hW : A.W = B.W)
    (out : LabelMap) (hout : guided_relabel A B = some out)
    (k : Nat) (hk : k < A.data.length) (hko : k < out.data.length) :
    ∃ t, out.data[k] = t ∧ t ∈ uniqueSorted B.data ∧
      (∀ u ∈ uniqueSorted B.data,
        iou A.data B.data (A.H * A.W) (A.data[k]) u ≤
          iou A.data B.data (A.H * A.W) (A.data[k]) t) ∧
      (∀ u ∈ uniqueSorted B.data,
        iou A.data B.data (A.H * A.W) (A.data[k]) u =
          iou A.data B.data (A.H * A.W) (A.data[k]) t → t ≤ u) := by
  have hBlen : B.data.length = A.data.length := shape_eq_data_length A B hA hB hH hW
  have hBne : B.data ≠ [] := by
    intro hnil
    rw [hnil] at hBlen
    simp at hBlen
    omega
  have hpix := guided_relabel_pixel A B hH hW out hout k hk hko
  obtain ⟨htmem, hmax, htie⟩ :=
    relabelTarget_spec A.data B.data (A.H * A.W) (A.data[k]) hBne
  exact ⟨relabelTarget A.data B.data (A.H * A.W) (A.data[k]),
    hpix, htmem, hmax, htie⟩

/-- C5 (witness): on `predicted = [[2]]`, `ground_truth = [[9]]` the
single pixel receives the maximal-IOU ground-truth label 9. -/
theorem guided_relabel_argmax_rule_witness :
    ∃ t, (9 : Int) = t ∧ t ∈ uniqueSorted [9] ∧
      (∀ u ∈ uniqueSorted [9], iou [2] [9] 1 2 u ≤ iou [2] [9] 1 2 t) ∧
      (∀ u ∈ uniqueSorted [9], iou [2] [9] 1 2 u = iou [2] [9] 1 2 t → t ≤ u) :=
  guided_relabel_argmax_rule ⟨1, 1, [2]⟩ ⟨1, 1, [9]⟩ (by decide) (by decide)
    rfl rfl ⟨1, 1, [9]⟩ (by decide) 0 (by decide) (by decide)

/-- C6: the end-to-end 4×4 scenario of the spec — labels 1, 2, 3 are
rewritten to 5, 6, 7 respectively and 0 stays 0 (each pairing has
IOU 1). -/
theorem guided_relabel_concrete_4x4 :
    guided_relabel specPred specTrue =
      some ⟨4, 4, [5, 5, 6, 6, 5, 5, 6, 6, 7, 7, 0, 0, 7, 7, 0, 0]⟩ := by
  have hu : uniqueSorted specTrue.data = [0, 5, 6, 7] := by decide
  have hne : specTrue.data ≠ [] := by decide
  have hmat : ∀ p t0 : Int,
      interCount specPred.data specTrue.data p t0 = 4 →
      neitherCount specPred.data specTrue.data p t0 = 12 →
      iou specPred.data specTrue.data 16 p t0 = 1 := by
    intro p t0 h1 h2
    unfold iou unionCount
    rw [h1, h2]
    norm_num
  have hzero : ∀ p t0 : Int,
      interCount specPred.data specTrue.data p t0 = 0 →
      iou specPred.data specTrue.data 16 p t0 = 0 := by
    intro p t0 h1
    unfold iou
    rw [h1]
    simp
  have ht0 : relabelTarget specPred.data specTrue.data 16 0 = 0 := by
    apply relabelTarget_eq_of_unique_max _ _ _ _ _ hne (by rw [hu]; decide)
    · rw [hmat 0 0 (by decide) (by decide)]
    · intro u hu' hne'
      rw [hu] at hu'
      fin_cases hu'
      · exact absurd rfl hne'
      · rw [hzero 0 5 (by decide)]; norm_num
      · rw [hzero 0 6 (by decide)]; norm_num
      · rw [hzero 0 7 (by decide)]; norm_num
  have ht1 : relabelTarget specPred.data specTrue.data 16 1 = 5 := by
    apply relabelTarget_eq_of_unique_max _ _ _ _ _ hne (by rw [hu]; decide)
    · rw [hmat 1 5 (by decide) (by decide)]
    · intro u hu' hne'
      rw [hu] at hu'
      fin_cases hu'
      · rw [hzero 1 0 (by decide)]; norm_num
      · exact absurd rfl hne'
      · rw [hzero 1 6 (by decide)]; norm_num
      · rw [hzero 1 7 (by decide)]; norm_num
  have ht2 : relabelTarget specPred.data specTrue.data 16 2 = 6 := by
    apply relabelTarget_eq_of_unique_max _ _ _ _ _ hne (by rw [hu]; decide)
    · rw [hmat 2 6 (by decide) (by decide)]
    · intro u hu' hne'
      rw [hu] at hu'
      fin_cases hu'
      · rw [hzero 2 0 (by decide)]; norm_num
      · rw [hzero 2 5 (by decide)]; norm_num
      · exact absurd rfl hne'
      · rw [hzero 2 7 (by decide)]; norm_num
  have ht3 : relabelTarget specPred.data specTrue.data 16 3 = 7 := by
    apply relabelTarget_eq_of_unique_max _ _ _ _ _ hne (by rw [hu]; decide)
    · rw [hmat 3 7 (by decide) (by decide)]
    · intro u hu' hne'
      rw [hu] at hu'
      fin_cases hu'
      · rw [hzero 3 0 (by decide)]; norm_num
      · rw [hzero 3 5 (by decide)]; norm_num
      · rw [hzero 3 6 (by decide)]; norm_num
      · exact absurd rfl hne'
  rw [guided_relabel_eq_some specPred specTrue rfl rfl]
  have hdata : guided_relabel_data specPred.data specTrue.data
      (specPred.H * specPred.W) =
      [5, 5, 6, 6, 5, 5, 6, 6, 7, 7, 0, 0, 7, 7, 0, 0] := by
    apply List.ext_getElem
    · rw [guided_relabel_data_length]
      rfl
    · intro k hk1 hk2
      have hk16 : k < 16 := by
        have hlen := guided_relabel_data_length specPred.data specTrue.data
          (specPred.H * specPred.W)
        have hPlen : specPred.data.length = 16 := rfl
        omega
      have hkP : k < specPred.data.length := by
        have hPlen : specPred.data.length = 16 := rfl
        omega
      rw [guided_relabel_data_getElem _ _ _ k hkP hk1]
      interval_cases k
      · exact ht1
      · exact ht1
      · exact ht2
      · exact ht2
      · exact ht1
      · exact ht1
      · exact ht2
      · exact ht2
      · exact ht3
      · exact ht3
      · exact ht0
      · exact ht0
      · exact ht3
      · exact ht3
      · exact ht0
      · exact ht0
  rw [hdata]
  rfl

/-- C7: `guided_relabel` fails exactly on shape mismatch: it returns
`none` iff the two shapes differ, and on well-formed equal-shape inputs
it returns a well-formed label map of the same shape. -/
theorem guided_relabel_shape_contract (A B : LabelMap) :
    (guided_relabel A B = none ↔ ¬(A.H = B.H ∧ A.W = B.W)) ∧
    (A.wf → B.wf → A.H = B.H → A.W = B.W →
      ∃ out, guided_relabel A B = some out ∧ out.wf ∧
        out.H = A.H ∧ out.W = A.W) := by
  constructor
  · unfold guided_relabel
    split_ifs with h
    · simp [h]
    · simp [h]
  · intro hA _ hH hW
    refine ⟨⟨A.H, A.W, guided_relabel_data A.data B.data (A.H * A.W)⟩,
      guided_relabel_eq_some A B hH hW, ?_, rfl, rfl⟩
    show (guided_relabel_data A.data B.data (A.H * A.W)).length = A.H * A.W
    rw [guided_relabel_data_length]
    exact hA

/-- C7 (witness): a concrete shape mismatch returns `none`; concrete
equal-shape inputs return a well-formed map. -/
theorem guided_relabel_shape_contract_witness :
    guided_relabel ⟨1, 1, [5]⟩ ⟨2, 1, [3, 4]⟩ = none ∧
    ∃ out, guided_relabel ⟨1, 1, [5]⟩ ⟨1, 1, [7]⟩ = some out ∧ out.wf := by
  constructor
  · exact (guided_relabel_shape_contract ⟨1, 1, [5]⟩ ⟨2, 1, [3, 4]⟩).1.mpr
      (by decide)
  · obtain ⟨out, h1, h2, _, _⟩ :=
      (guided_relabel_shape_contract ⟨1, 1, [5]⟩ ⟨1, 1, [7]⟩).2
        (by decide) (by decide) rfl rfl
    exact ⟨out, h1, h2⟩

/-- C8: an unrecognized dataset name leaves the hyperparameter record
unassigned (the dispatch itself returns `none` and never fails), and the
run then fails at the first use of the hyperparameters inside the batch
loop (`segment_diffusion(hashmap, hparams)` raises `NameError` on the
first processed file). -/
theorem hparams_dispatch_deferred (name : String)
    (h1 : name ≠ "retina") (h2 : name ≠ "berkeley") :
    mainDispatch name = none ∧
    ∀ (f : String) (fs : List String),
      driverRun name (f :: fs) =
        Except.error "NameError: name hparams is not defined" := by
  have hdisp : mainDispatch name = none := by
    unfold mainDispatch
    rw [if_neg h1, if_neg h2]
  refine ⟨hdisp, fun f fs => ?_⟩
  unfold driverRun
  rw [hdisp]
  rfl

/-- C8 (witness): the dataset name `brain` is dispatched to no
hyperparameters and the first batch iteration fails. -/
theorem hparams_dispatch_deferred_witness :
    mainDispatch "brain" = none ∧
    ∀ (f : String) (fs : List String),
      driverRun "brain" (f :: fs) =
        Except.error "NameError: name hparams is not defined" :=
  hparams_dispatch_deferred "brain" (by decide) (by decide)

/-- C9: `guided_relabel` never splits a predicted region — two pixels
with equal predicted values have equal output values, so the relabeling
is induced by a function on predicted label values. -/
theorem guided_relabel_no_region_split (A B : LabelMap)
    (hH : A.H = B.H) (hW : A.W = B.W)
    (out : LabelMap) (hout : guided_relabel A B = some out)
    (k1 k2 : Nat) (hk1 : k1 < A.data.length) (hk2 : k2 < A.data.length)
    (hk1o : k1 < out.data.length) (hk2o : k2 < out.data.length)
    (heq : A.data[k1] = A.data[k2]) :
    out.data[k1] = out.data[k2] := by
  rw [guided_relabel_pixel A B hH hW out hout k1 hk1 hk1o,
      guided_relabel_pixel A B hH hW out hout k2 hk2 hk2o, heq]

/-- C9 (witness): the two pixels of `predicted = [[3, 3]]` share their
output value. -/
theorem guided_relabel_no_region_split_witness :
    (⟨1, 2, [8, 8]⟩ : LabelMap).data[0] = (⟨1, 2, [8, 8]⟩ : LabelMap).data[1] :=
  guided_relabel_no_region_split ⟨1, 2, [3, 3]⟩ ⟨1, 2, [8, 8]⟩ rfl rfl
    ⟨1, 2, [8, 8]⟩ (by decide) 0 1 (by decide) (by decide) (by decide)
    (by decide) (by decide)

/-- C10: on two arrays all of whose elements equal one common constant,
`range_aware_ssim` computes data range exactly 0 and passes it unguarded
to the underlying SSIM routine (abstracted as `ssimFn`). -/
theorem range_aware_ssim_zero_range (c : ℚ) (a b : List ℚ)
    (ha : a ≠ []) (hb : b ≠ []) (hca : ∀ x ∈ a, x = c) (hcb : ∀ x ∈ b, x = c) :
    dataRange a b = 0 ∧
    ∀ ssimFn : List ℚ → List ℚ → ℚ → ℚ,
      range_aware_ssim ssimFn a b = ssimFn a b 0 := by
  have hr : dataRange a b = 0 := by
    unfold dataRange
    rw [listMax_const c a ha hca, listMax_const c b hb hcb,
        listMin_const c a ha hca, listMin_const c b hb hcb,
        max_self, min_self, sub_self]
  refine ⟨hr, fun ssimFn => ?_⟩
  unfold range_aware_ssim
  rw [hr]

/-- C10 (witness): two constant arrays of value 3 yield data range 0,
handed directly to the SSIM callback. -/
theorem range_aware_ssim_zero_range_witness :
    dataRange [3] [3, 3] = 0 ∧
    range_aware_ssim (fun _ _ r => r) [3] [3, 3] = 0 := by
  have h := range_aware_ssim_zero_range 3 [3] [3, 3] (by decide) (by decide)
    (by decide) (by decide)
  exact ⟨h.1, h.2 (fun _ _ r => r)⟩

end RunMetrics
